import Mathlib

/-!
Verification of the code quality analyser (src/main.py).

Source text is modelled as a list of characters (`List Char`); the Python
operation `code.split("\n")` is modelled by `splitLines`, `str.strip()` by
`pyStrip`, and the substring test `sub in code` by `containsSub`.  Python
integers are modelled by `Int` and Python floats arising from the single
division `sum/len` (exact on these inputs conceptually) by `Rat`.  The
abstract syntax trees produced by `ast.parse` are modelled by the inductive
type `PyAst`, with `ast.walk`-style breadth-first traversal given by `walk`.
-/

/-- Python whitespace characters stripped by `str.strip()` (ASCII fragment). -/
def isPySpace (c : Char) : Bool :=
  c = ' ' || c = '\t' || c = '\n' || c = '\r' || c = '\x0b' || c = '\x0c'

/-- Model of Python `code.split("\n")`: splitting on the newline separator,
keeping empty pieces, with `[""]` on empty input. -/
def splitLines : List Char → List (List Char)
  | [] => [[]]
  | c :: cs =>
    if c = '\n' then [] :: splitLines cs
    else
      match splitLines cs with
      | [] => [[c]]
      | l :: ls => (c :: l) :: ls

/-- Model of Python `line.strip()`: drop whitespace from both ends. -/
def pyStrip (l : List Char) : List Char :=
  ((l.dropWhile isPySpace).reverse.dropWhile isPySpace).reverse

/-- Model of `line.strip().startswith("#")`. -/
def startsWithHash (l : List Char) : Bool :=
  match pyStrip l with
  | '#' :: _ => true
  | _ => false

/-- Embedding of `analyze_code_complexity` (src/main.py lines 10-18):
count the lines whose stripped form starts with the comment marker. -/
def analyze_code_complexity (code : List Char) : Int :=
  (splitLines code).foldl
    (fun complexity_score line =>
      if startsWithHash line then complexity_score + 1 else complexity_score) 0

/-- Model of the Python substring test `sub in text`. -/
def containsSub (sub : List Char) : List Char → Bool
  | [] => sub.isEmpty
  | c :: rest => sub.isPrefixOf (c :: rest) || containsSub sub rest

/-- Embedding of `analyze_code_quality` (src/main.py lines 21-35). -/
def analyze_code_quality (code : List Char) : Int :=
  let quality_score : Int := 0
  let quality_score := quality_score + analyze_code_complexity code
  let quality_score :=
    if containsSub ("goto".data) code then quality_score - 10 else quality_score
  let quality_score :=
    if containsSub ("magic_number".data) code then quality_score - 5 else quality_score
  quality_score

/-- Model of the cased-and-uppercase test of Python (ASCII fragment). -/
def charIsUpper (c : Char) : Bool := decide (65 ≤ c.toNat ∧ c.toNat ≤ 90)

/-- Model of the cased-and-lowercase test of Python (ASCII fragment). -/
def charIsLower (c : Char) : Bool := decide (97 ≤ c.toNat ∧ c.toNat ≤ 122)

/-- A cased character: one that is uppercase or lowercase. -/
def charIsCased (c : Char) : Bool := charIsUpper c || charIsLower c

/-- Decimal digit test. -/
def charIsDigit (c : Char) : Bool := decide (48 ≤ c.toNat ∧ c.toNat ≤ 57)

/-- Model of Python lowercasing of a single character (ASCII fragment). -/
def charToLower (c : Char) : Char :=
  if 65 ≤ c.toNat ∧ c.toNat ≤ 90 then Char.ofNat (c.toNat + 32) else c

/-- Model of Python `s.lower()`. -/
def pyLower (s : List Char) : List Char := s.map charToLower

/-- Model of Python `s.islower()`: at least one cased character and no
uppercase cased character. -/
def pyIsLower (s : List Char) : Bool := s.any charIsCased && !(s.any charIsUpper)

/-- Model of Python `s.isupper()`: at least one cased character and no
lowercase cased character. -/
def pyIsUpper (s : List Char) : Bool := s.any charIsCased && !(s.any charIsLower)

/-- First character class of the identifier pattern: a letter or underscore. -/
def isIdentStart (c : Char) : Bool := charIsCased c || decide (c.toNat = 95)

/-- Later character class of the identifier pattern: letter, digit or underscore. -/
def isIdentChar (c : Char) : Bool :=
  charIsCased c || charIsDigit c || decide (c.toNat = 95)

/-- Model of the anchored regular-expression test used at src/main.py line 73:
the string is a letter or underscore followed by letters, digits or
underscores. -/
def matchesIdent : List Char → Bool
  | [] => false
  | c :: cs => isIdentStart c && cs.all isIdentChar

/-- Model of the Python abstract syntax tree nodes relevant to the analyser:
`module` models `ast.Module`, `functionDef` models `ast.FunctionDef` with its
name and ordered body statements, `classDef` models `ast.ClassDef`, `nameId`
models an identifier-use node `ast.Name` with its `id` field, `constStr`
models an expression statement whose value is a string constant (the shape
recognised by `ast.get_docstring`), and `other` models any other node kind
together with its child nodes.  Statement nodes carry their 1-based source
line number. -/
inductive PyAst where
  | module (body : List PyAst)
  | functionDef (lineno : Nat) (name : List Char) (body : List PyAst)
  | classDef (lineno : Nat) (name : List Char) (body : List PyAst)
  | nameId (lineno : Nat) (id : List Char)
  | constStr (lineno : Nat) (s : List Char)
  | other (lineno : Nat) (children : List PyAst)

/-- Child nodes, as enumerated by `ast.iter_child_nodes`. -/
def childrenOf : PyAst → List PyAst
  | .module b => b
  | .functionDef _ _ b => b
  | .classDef _ _ b => b
  | .nameId _ _ => []
  | .constStr _ _ => []
  | .other _ b => b

mutual
/-- Number of nodes of a tree; used as fuel for the breadth-first walk. -/
def astSize : PyAst → Nat
  | .module b => 1 + astSizeList b
  | .functionDef _ _ b => 1 + astSizeList b
  | .classDef _ _ b => 1 + astSizeList b
  | .nameId _ _ => 1
  | .constStr _ _ => 1
  | .other _ b => 1 + astSizeList b

/-- Total number of nodes of a list of trees. -/
def astSizeList : List PyAst → Nat
  | [] => 0
  | t :: ts => astSize t + astSizeList ts
end

/-- Breadth-first queue traversal with fuel; each step yields the front node
and enqueues its children, exactly as `ast.walk` does with its deque. -/
def walkAux : Nat → List PyAst → List PyAst
  | 0, _ => []
  | _, [] => []
  | fuel + 1, t :: q => t :: walkAux fuel (q ++ childrenOf t)

/-- Model of `ast.walk tree`: breadth-first node enumeration starting at the
root.  The node count of the tree is sufficient fuel because every step of
`walkAux` consumes exactly one node of the forest held in its queue. -/
def walk (t : PyAst) : List PyAst := walkAux (astSize t) [t]

/-- The violation message for src/main.py line 62. -/
def functionLowercaseMsg (n : List Char) : List Char :=
  "Function name '".data ++ n ++ "' should be in lowercase.".data

/-- The violation message for src/main.py line 69. -/
def variableUppercaseMsg (i : List Char) : List Char :=
  "Variable name '".data ++ i ++ "' should not be in uppercase.".data

/-- The violation message for src/main.py line 74. -/
def variableConventionMsg (i : List Char) : List Char :=
  "Variable name '".data ++ i ++ "' does not follow naming conventions.".data

/-- Per-node action of `check_naming_conventions` on the accumulated pair of
the violation list and the latest compiled-artifact handle (`None` initially,
refreshed on every rewrite; the artifact itself is opaque here). -/
def nameStep (st : List (List Char) × Option Unit) (node : PyAst) :
    List (List Char) × Option Unit :=
  match node with
  | .functionDef _ function_name _ =>
    if !pyIsLower function_name then
      (st.1 ++ [functionLowercaseMsg function_name], some ())
    else st
  | .nameId _ variable_name =>
    if pyIsUpper variable_name then
      (st.1 ++ [variableUppercaseMsg variable_name], some ())
    else if !matchesIdent variable_name then
      (st.1 ++ [variableConventionMsg variable_name], st.2)
    else st
  | _ => st

mutual
/-- The in-place mutation performed by `check_naming_conventions`: function
names that fail `islower` are lowercased, identifier uses that pass `isupper`
are lowercased; every other field is untouched.  Each node is visited once and
the rewrite of a node depends only on that node, so the walk-interleaved
mutation of the Python code equals this structural map. -/
def cnvRewrite : PyAst → PyAst
  | .module b => .module (cnvRewriteList b)
  | .functionDef ln n b =>
    .functionDef ln (if !pyIsLower n then pyLower n else n) (cnvRewriteList b)
  | .classDef ln n b => .classDef ln n (cnvRewriteList b)
  | .nameId ln i => .nameId ln (if pyIsUpper i then pyLower i else i)
  | .constStr ln s => .constStr ln s
  | .other ln b => .other ln (cnvRewriteList b)

/-- `cnvRewrite` mapped over a list of trees. -/
def cnvRewriteList : List PyAst → List PyAst
  | [] => []
  | t :: ts => cnvRewrite t :: cnvRewriteList ts
end

/-- Embedding of `check_naming_conventions` (src/main.py lines 52-76).  The
Python function returns the violation list and the compiled-artifact handle
and additionally mutates the tree passed in; the mutation is made explicit as
the second component of the result. -/
def check_naming_conventions (tree : PyAst) :
    (List (List Char) × Option Unit) × PyAst :=
  ((walk tree).foldl nameStep ([], none), cnvRewrite tree)

/-- Embedding of `calculate_average_function_length` (src/main.py lines
38-49): collect the immediate body-statement count of every FunctionDef node
of the walk and return their mean, or 0 when there are none. -/
def calculate_average_function_length (tree : PyAst) : Rat :=
  let function_lengths := (walk tree).foldl
    (fun acc node =>
      match node with
      | PyAst.functionDef _ _ body => acc ++ [body.length]
      | _ => acc) ([] : List Nat)
  if function_lengths.isEmpty then 0
  else (function_lengths.sum : Rat) / (function_lengths.length : Rat)

/-- The immediate body-statement counts of the FunctionDef nodes of the walk,
one entry per FunctionDef node. -/
def funcLengths (tree : PyAst) : List Nat :=
  (walk tree).filterMap fun node =>
    match node with
    | PyAst.functionDef _ _ body => some body.length
    | _ => none

/-- Parser-produced FunctionDef nodes always have a nonempty body (the Python
grammar requires at least one statement). -/
def funcBodyNonempty : PyAst → Bool
  | .functionDef _ _ body => !body.isEmpty
  | _ => true

/-- Nodes on which the second pass of the naming checker is guaranteed to be
silent after the rewrite of the first pass: FunctionDef names containing at
least one cased character and identifier uses matching the identifier
pattern.  Every parser-produced tree satisfies this except function names
without letters (such as a bare underscore). -/
def stableNameNode : PyAst → Bool
  | .functionDef _ n _ => n.any charIsCased
  | .nameId _ i => matchesIdent i
  | _ => true

/-- Model of the truthiness of `ast.get_docstring(node)`: the first body
statement is a string-constant expression whose cleaned form is nonempty,
that is, the string has at least one non-whitespace character. -/
def hasTruthyDocstring : List PyAst → Bool
  | PyAst.constStr _ s :: _ => s.any (fun c => !isPySpace c)
  | _ => false

/-- The source line number attribute of a node. -/
def linenoOf : PyAst → Nat
  | .module _ => 1
  | .functionDef ln _ _ => ln
  | .classDef ln _ _ => ln
  | .nameId ln _ => ln
  | .constStr ln _ => ln
  | .other ln _ => ln

/-- `node.body[0].lineno`; parser-produced bodies are nonempty, the default
value 1 on an empty body is never exercised under that invariant. -/
def firstLineno : List PyAst → Nat
  | [] => 1
  | s :: _ => linenoOf s

/-- `code.split("\n")[k]`, with the out-of-range default never exercised for
parser-produced line numbers. -/
def lineAt (code : List Char) (k : Nat) : List Char := (splitLines code).getD k []

/-- Recommendation message of src/main.py line 94. -/
def addCommentsFunctionMsg (n : List Char) : List Char :=
  "Consider adding comments to function '".data ++ n ++ "'.".data

/-- Recommendation message of src/main.py line 102. -/
def addCommentsClassMsg (n : List Char) : List Char :=
  "Consider adding comments to class '".data ++ n ++ "'.".data

/-- Recommendation message of src/main.py line 109. -/
def addCommentsHereMsg : List Char := "Consider adding comments here.".data

/-- The string spliced into the working copy by the FunctionDef and ClassDef
branches (src/main.py lines 95-97 and 103-105). -/
def placeholderInsert : List Char := "\n# Add comments here\n".data

/-- The string prepended to the working copy by the Module branch
(src/main.py line 110). -/
def placeholderModule : List Char := "# Add comments here\n".data

/-- Recommendation message of src/main.py line 117, with the 1-based line
number and the fixed limit 79 interpolated. -/
def splitLineMsg (i : Nat) : List Char :=
  "Consider splitting line ".data ++ (Nat.repr i).data
    ++ " as it exceeds the line length limit of 79 characters.".data

/-- Per-node action of `recommend_coding_style` on the accumulated pair of
the recommendation list and the working text copy.  Note that the splice of
the FunctionDef and ClassDef branches slices the working copy at CHARACTER
index `line_number - 1`, exactly as the Python string slicing
`modified_code[:line_number - 1]` does. -/
def recStep (code : List Char) (st : List (List Char) × List Char)
    (node : PyAst) : List (List Char) × List Char :=
  match node with
  | .functionDef _ name body =>
    if hasTruthyDocstring body then st
    else
      let line_number := firstLineno body
      if startsWithHash (lineAt code (line_number - 1)) then st
      else
        (st.1 ++ [addCommentsFunctionMsg name],
         st.2.take (line_number - 1) ++ placeholderInsert
           ++ st.2.drop (line_number - 1))
  | .classDef _ name body =>
    if hasTruthyDocstring body then st
    else
      let line_number := firstLineno body
      if startsWithHash (lineAt code (line_number - 1)) then st
      else
        (st.1 ++ [addCommentsClassMsg name],
         st.2.take (line_number - 1) ++ placeholderInsert
           ++ st.2.drop (line_number - 1))
  | .module body =>
    if hasTruthyDocstring body then st
    else if startsWithHash (lineAt code 0) then st
    else (st.1 ++ [addCommentsHereMsg], placeholderModule ++ st.2)
  | _ => st

/-- The line-length loop of src/main.py lines 113-118: 1-based enumeration of
the original lines; an overlong line appends a message and splices a
backslash-newline at character offsets `i-1`/`i` of the working copy
(dropping the character at offset `i-1`), exactly as the Python slicing
does. -/
def lineLengthAux (i : Nat) (st : List (List Char) × List Char) :
    List (List Char) → List (List Char) × List Char
  | [] => st
  | line :: rest =>
    lineLengthAux (i + 1)
      (if line.length > 79
        then (st.1 ++ [splitLineMsg i],
              st.2.take (i - 1) ++ ['\\', '\n'] ++ st.2.drop i)
        else st) rest

/-- Embedding of `recommend_coding_style` (src/main.py lines 79-128).  The
function parses its own tree from the text; the tree is passed explicitly
here.  The printing loop at lines 124-126 is boundary output and has no
bearing on the returned value. -/
def recommend_coding_style (code : List Char) (tree : PyAst) :
    List (List Char) × List Char :=
  let st := (walk tree).foldl (recStep code) ([], code)
  let st := lineLengthAux 1 st (splitLines code)
  if st.1.isEmpty then
    (["No coding style recommendations found.".data],
     "No modified actions applied".data)
  else st

/-- Nodes on which `recStep` leaves the state unchanged: everything except
Module, FunctionDef and ClassDef nodes. -/
def silentRec : PyAst → Bool
  | .module _ => false
  | .functionDef _ _ _ => false
  | .classDef _ _ _ => false
  | _ => true

/-- Breadth-first enumeration of a forest of sibling trees, with exactly
sufficient fuel. -/
def walkForest (l : List PyAst) : List PyAst := walkAux (astSizeList l) l

/-- Length of the longest common prefix of two character lists. -/
def cpl : List Char → List Char → Nat
  | x :: xs, y :: ys => if x = y then cpl xs ys + 1 else 0
  | _, _ => 0

/-- All index pairs (i, j) with i < n and j < m, i ascending then j
ascending. -/
def allPairs (n m : Nat) : List (Nat × Nat) :=
  (List.range n).flatMap fun i => (List.range m).map fun j => (i, j)

/-- Model of the difflib longest-match search on two windows (with no junk
characters, the situation for lines shorter than 200 characters where the
autojunk heuristic never fires): among all matching blocks, a longest one;
among those, the one starting earliest in the first string, then earliest in
the second.  Returned as (start in a, start in b, length), with (0, 0, 0)
when there is no common character. -/
def findBest (a b : List Char) : Nat × Nat × Nat :=
  (allPairs a.length b.length).foldl
    (fun best p =>
      let k := cpl (a.drop p.1) (b.drop p.2)
      if k > best.2.2 then (p.1, p.2, k) else best)
    (0, 0, 0)

/-- Total matched size of the greedy recursive block matcher behind
`SequenceMatcher.get_matching_blocks`: take the longest match, recurse on the
parts before and after it on both sides.  The fuel `a.length + b.length` is
sufficient: a nonempty match strictly shrinks the combined length of each
recursive call. -/
def matchTotalFuel : Nat → List Char → List Char → Nat
  | 0, _, _ => 0
  | fuel + 1, a, b =>
    let best := findBest a b
    if best.2.2 = 0 then 0
    else
      matchTotalFuel fuel (a.take best.1) (b.take best.2.1)
        + best.2.2
        + matchTotalFuel fuel (a.drop (best.1 + best.2.2)) (b.drop (best.2.1 + best.2.2))

/-- Total size of the matching blocks found by the difflib matcher. -/
def matchTotal (a b : List Char) : Nat := matchTotalFuel (a.length + b.length) a b

/-- Model of the test `difflib.SequenceMatcher(None, l1, l2).ratio() > 0.8`:
the ratio is `2*M/T` where `M` is the total matched size and `T` the combined
length, and difflib defines the ratio of two empty strings to be 1.0.  The
comparison is exact rational arithmetic (`2*M/T > 4/5` iff `5*M > 2*T`),
which agrees with the Python float comparison for all realistic line
lengths. -/
def similarityAbove (l1 l2 : List Char) : Bool :=
  if l1.length + l2.length = 0 then true
  else decide (5 * matchTotal l1 l2 > 2 * (l1.length + l2.length))

/-- Embedding of `detect_repeated_code` (src/main.py lines 149-160): for each
line, compare with every later line and record the index pair when the
similarity ratio exceeds 0.8. -/
def detect_repeated_code (code : List Char) : List (Nat × Nat) :=
  let lines := splitLines code
  lines.enum.foldl
    (fun repeated_code p =>
      (lines.drop (p.1 + 1)).enum.foldl
        (fun acc q =>
          if similarityAbove p.2 q.2 then acc ++ [(p.1, q.1 + p.1 + 1)] else acc)
        repeated_code)
    []

/-- The pairs contributed by one outer line against the lines after it,
with `j` the absolute index of the head of the remaining list. -/
def innerPairs (line1 : List Char) (i : Nat) (j : Nat) :
    List (List Char) → List (Nat × Nat)
  | [] => []
  | line2 :: rest =>
    (if similarityAbove line1 line2 then [(i, j)] else [])
      ++ innerPairs line1 i (j + 1) rest

/-- All duplicate pairs of the suffix of the line list starting at absolute
index `k`. -/
def pairsFrom (k : Nat) : List (List Char) → List (Nat × Nat)
  | [] => []
  | line1 :: rest => innerPairs line1 k (k + 1) rest ++ pairsFrom (k + 1) rest

/-- Strict lexicographic order on index pairs. -/
def pairLex (x y : Nat × Nat) : Prop := x.1 < y.1 ∨ (x.1 = y.1 ∧ x.2 < y.2)

/-- Model of a Python SyntaxError value: the diagnostic message together with
the source position (line and column) reported by the parser. -/
structure SyntaxFailure where
  msg : List Char
  lineno : Nat
  offset : Nat

/-- Modelled from the spec: the parser `ast.parse` is an external library
routine, not part of this repository; per the shared parse-failure contract
it either produces a syntax tree or raises a SyntaxError carrying the
original diagnostic message and source location.  Its outcome is represented
as a value of this type and supplied to `analyze_code`. -/
def ParseOutcome : Type := Except SyntaxFailure PyAst

/-- The aggregate result dictionary built by `analyze_code`. -/
structure AnalysisResult where
  complexity_score : Int
  quality_score : Int
  average_function_length : Rat
  naming_violations : List (List Char) × Option Unit
  recommendations : List (List Char) × List Char

/-- Embedding of `analyze_code` (src/main.py lines 130-146): no recovery is
attempted, so a parse failure propagates unmodified to the caller, and on a
successful parse every component is computed and the result dictionary
returned. -/
def analyze_code (code : List Char) (parsed : ParseOutcome) :
    Except SyntaxFailure AnalysisResult :=
  match parsed with
  | .error e => .error e
  | .ok tree =>
    .ok { complexity_score := analyze_code_complexity code
          quality_score := analyze_code_quality code
          average_function_length := calculate_average_function_length tree
          naming_violations := (check_naming_conventions tree).1
          recommendations := recommend_coding_style code tree }

theorem foldl_count (p : List Char → Bool) :
    ∀ (l : List (List Char)) (a : Int),
      l.foldl (fun acc line => if p line then acc + 1 else acc) a
        = a + l.countP p := by
  intro l
  induction l with
  | nil => intro a; simp
  | cons x xs ih =>
    intro a
    rw [List.foldl_cons, List.countP_cons]
    by_cases h : p x
    · rw [if_pos h, if_pos h, ih (a + 1)]
      push_cast
      ring
    · rw [if_neg h, if_neg h, ih a]
      push_cast
      ring

/-- C7: for every input text, the complexity score equals the number of lines
whose whitespace-stripped form starts with the comment marker, and it is
nonnegative.  The embedding is a total function, mirroring the pure Python
loop with no failure mode. -/
theorem complexity_counts_comment_lines (code : List Char) :
    analyze_code_complexity code
        = ((splitLines code).countP startsWithHash : Int) ∧
    0 ≤ analyze_code_complexity code := by
  have h := foldl_count startsWithHash (splitLines code) 0
  constructor
  · simpa [analyze_code_complexity] using h
  · simp only [analyze_code_complexity, h]
    positivity

/-- C9: the quality score never exceeds the complexity score: the two
substring penalty rules can only subtract. -/
theorem quality_le_complexity (code : List Char) :
    analyze_code_quality code ≤ analyze_code_complexity code := by
  unfold analyze_code_quality
  dsimp only
  split <;> split <;> omega

theorem isPrefixOf_iff_append :
    ∀ (p x : List Char), p.isPrefixOf x = true ↔ ∃ s, x = p ++ s := by
  intro p
  induction p with
  | nil => intro x; simp [List.isPrefixOf]
  | cons a as ih =>
    intro x
    cases x with
    | nil => simp [List.isPrefixOf]
    | cons b bs =>
      simp only [List.isPrefixOf, Bool.and_eq_true, beq_iff_eq, ih bs]
      constructor
      · rintro ⟨rfl, s, rfl⟩; exact ⟨s, rfl⟩
      · rintro ⟨s, h⟩
        injection h with h1 h2
        exact ⟨h1.symm, s, h2⟩

theorem containsSub_iff_append (pat : List Char) :
    ∀ code, containsSub pat code = true ↔ ∃ pre suf, code = pre ++ pat ++ suf := by
  intro code
  induction code with
  | nil =>
    simp only [containsSub, List.isEmpty_iff]
    constructor
    · rintro rfl; exact ⟨[], [], rfl⟩
    · rintro ⟨pre, suf, h⟩
      rcases List.append_eq_nil.mp h.symm with ⟨h1, h2⟩
      exact (List.append_eq_nil.mp h1).2
  | cons c rest ih =>
    simp only [containsSub, Bool.or_eq_true, ih, isPrefixOf_iff_append]
    constructor
    · rintro (⟨s, h⟩ | ⟨pre, suf, h⟩)
      · exact ⟨[], s, by simpa using h⟩
      · exact ⟨c :: pre, suf, by simp [h]⟩
    · rintro ⟨pre, suf, h⟩
      cases pre with
      | nil => exact Or.inl ⟨suf, by simpa using h⟩
      | cons p ps =>
        injection h with h1 h2
        exact Or.inr ⟨ps, suf, h2⟩

/-- C1: for every input text, the quality score equals the complexity score
minus 10 when the literal substring "goto" occurs anywhere in the text and
minus 5 when the literal substring "magic_number" occurs anywhere, each
penalty applied at most once; occurrence of a substring is the existence of a
decomposition of the text around it; the result can be negative. -/
theorem quality_eq_complexity_minus_penalties :
    (∀ code, analyze_code_quality code
        = analyze_code_complexity code
          - (if containsSub ("goto".data) code then 10 else 0)
          - (if containsSub ("magic_number".data) code then 5 else 0)) ∧
    (∀ pat code, containsSub pat code = true
        ↔ ∃ pre suf, code = pre ++ pat ++ suf) ∧
    (∃ T, analyze_code_quality T < 0) := by
  refine ⟨?_, fun pat code => containsSub_iff_append pat code, ⟨"goto".data, by decide⟩⟩
  intro code
  unfold analyze_code_quality
  dsimp only
  split <;> split <;> omega

/-- Witness for C1 at a concrete input containing the "goto" penalty trigger. -/
theorem quality_eq_complexity_minus_penalties_witness :
    containsSub ("goto".data) ("a goto b".data) = true
      ↔ ∃ pre suf, "a goto b".data = pre ++ "goto".data ++ suf :=
  quality_eq_complexity_minus_penalties.2.1 ("goto".data) ("a goto b".data)

theorem toNat_charOfNat_of_small {m : Nat} (h : m < 55296) :
    (Char.ofNat m).toNat = m := by
  have hv : m.isValidChar := Or.inl h
  simp [Char.ofNat, hv, Char.ofNatAux, Char.toNat, UInt32.toNat]

theorem toNat_charToLower (c : Char) :
    (charToLower c).toNat
      = if 65 ≤ c.toNat ∧ c.toNat ≤ 90 then c.toNat + 32 else c.toNat := by
  by_cases h : 65 ≤ c.toNat ∧ c.toNat ≤ 90
  · simp only [charToLower, if_pos h]
    exact toNat_charOfNat_of_small (by omega)
  · simp only [charToLower, if_neg h]

theorem charIsUpper_charToLower (c : Char) :
    charIsUpper (charToLower c) = false := by
  by_cases h : 65 ≤ c.toNat ∧ c.toNat ≤ 90
  · simp only [charIsUpper, toNat_charToLower, if_pos h, decide_eq_false_iff_not]
    omega
  · simp only [charIsUpper, toNat_charToLower, if_neg h, decide_eq_false_iff_not]
    omega

theorem charIsCased_charToLower (c : Char) :
    charIsCased (charToLower c) = charIsCased c := by
  by_cases h : 65 ≤ c.toNat ∧ c.toNat ≤ 90
  · simp only [charIsCased, charIsUpper, charIsLower, toNat_charToLower, if_pos h,
      ← Bool.decide_or, decide_eq_decide]
    omega
  · simp only [charIsCased, charIsUpper, charIsLower, toNat_charToLower, if_neg h]

theorem charIsLower_charToLower_of_cased (c : Char)
    (h : charIsCased c = true) : charIsLower (charToLower c) = true := by
  simp only [charIsCased, charIsUpper, charIsLower, Bool.or_eq_true,
    decide_eq_true_eq] at h
  by_cases hu : 65 ≤ c.toNat ∧ c.toNat ≤ 90
  · simp only [charIsLower, toNat_charToLower, if_pos hu, decide_eq_true_eq]
    omega
  · simp only [charIsLower, toNat_charToLower, if_neg hu, decide_eq_true_eq]
    omega

theorem isIdentStart_charToLower (c : Char) :
    isIdentStart (charToLower c) = isIdentStart c := by
  by_cases h : 65 ≤ c.toNat ∧ c.toNat ≤ 90
  · simp only [isIdentStart, charIsCased, charIsUpper, charIsLower,
      toNat_charToLower, if_pos h, ← Bool.decide_or, decide_eq_decide]
    omega
  · simp only [isIdentStart, charIsCased, charIsUpper, charIsLower,
      toNat_charToLower, if_neg h]

theorem isIdentChar_charToLower (c : Char) :
    isIdentChar (charToLower c) = isIdentChar c := by
  by_cases h : 65 ≤ c.toNat ∧ c.toNat ≤ 90
  · simp only [isIdentChar, charIsCased, charIsUpper, charIsLower, charIsDigit,
      toNat_charToLower, if_pos h, ← Bool.decide_or, decide_eq_decide]
    omega
  · simp only [isIdentChar, charIsCased, charIsUpper, charIsLower, charIsDigit,
      toNat_charToLower, if_neg h]

theorem foldl_funcLengths :
    ∀ (l : List PyAst) (acc : List Nat),
      (l.foldl (fun acc node =>
        match node with
        | PyAst.functionDef _ _ body => acc ++ [body.length]
        | _ => acc) acc)
      = acc ++ l.filterMap (fun node =>
          match node with
          | PyAst.functionDef _ _ body => some body.length
          | _ => none) := by
  intro l
  induction l with
  | nil => intro acc; simp
  | cons n ns ih => intro acc; cases n <;> simp [ih]

/-- C8: the average function length equals the arithmetic mean of the
immediate body-statement counts over all FunctionDef nodes of the walk (with
value 0 when there are none); and on trees whose FunctionDef bodies are all
nonempty — true of every parser-produced tree — the average is 0 exactly when
the tree contains no FunctionDef node. -/
theorem average_function_length_mean (tree : PyAst) :
    (calculate_average_function_length tree
        = if (funcLengths tree).length = 0 then 0
          else ((funcLengths tree).sum : Rat) / ((funcLengths tree).length : Rat)) ∧
    ((walk tree).all funcBodyNonempty = true →
      (calculate_average_function_length tree = 0 ↔ (funcLengths tree).length = 0)) := by
  have heq : calculate_average_function_length tree
      = if (funcLengths tree).length = 0 then 0
        else ((funcLengths tree).sum : Rat) / ((funcLengths tree).length : Rat) := by
    unfold calculate_average_function_length
    rw [foldl_funcLengths (walk tree) []]
    simp only [List.nil_append]
    rw [show ((walk tree).filterMap fun node =>
        match node with
        | PyAst.functionDef _ _ body => some body.length
        | _ => none) = funcLengths tree from rfl]
    rcases h : funcLengths tree with _ | ⟨x, xs⟩ <;> simp
  refine ⟨heq, fun hall => ?_⟩
  constructor
  · intro havg
    by_contra hlen
    rw [heq, if_neg hlen] at havg
    have hsum : (funcLengths tree).sum = 0 := by
      have := div_eq_zero_iff.mp havg
      rcases this with h0 | h0
      · exact_mod_cast h0
      · exact absurd (by exact_mod_cast h0) hlen
    have hone : ∀ x ∈ funcLengths tree, x = 0 := List.sum_eq_zero_iff.mp hsum
    have hnil : funcLengths tree ≠ [] := fun hn => hlen (by simp [hn])
    rcases List.exists_mem_of_ne_nil (funcLengths tree) hnil with ⟨x, hx⟩
    rcases List.mem_filterMap.mp hx with ⟨node, hnode, hsome⟩
    cases node with
    | functionDef ln nm body =>
      have hb : funcBodyNonempty (PyAst.functionDef ln nm body) = true :=
        List.all_eq_true.mp hall _ hnode
      simp only [funcBodyNonempty, Bool.not_eq_true', List.isEmpty_eq_false] at hb
      have hxlen : x = body.length := by
        have := hsome
        simp only [Option.some_inj] at this
        exact this.symm
      have : x = 0 := hone x hx
      rw [hxlen] at this
      exact hb (List.length_eq_zero.mp this)
    | module b => simp at hsome
    | classDef ln nm b => simp at hsome
    | nameId ln i => simp at hsome
    | constStr ln s => simp at hsome
    | other ln b => simp at hsome
  · intro hlen
    rw [heq, if_pos hlen]

/-- Witness for C8 on a concrete one-function tree. -/
theorem average_function_length_mean_witness :
    ((walk (PyAst.module [PyAst.functionDef 1 ("f".data)
        [PyAst.other 2 []]])).all funcBodyNonempty = true) ∧
    (calculate_average_function_length (PyAst.module [PyAst.functionDef 1 ("f".data)
        [PyAst.other 2 []]]) = 0
      ↔ (funcLengths (PyAst.module [PyAst.functionDef 1 ("f".data)
          [PyAst.other 2 []]])).length = 0) :=
  ⟨by decide, (average_function_length_mean _).2 (by decide)⟩

theorem not_pyIsLower (n : List Char) :
    (!pyIsLower n) = (n.any charIsUpper || !n.any charIsCased) := by
  unfold pyIsLower
  cases h1 : n.any charIsCased <;> cases h2 : n.any charIsUpper <;> simp [h1, h2]

/-- C2 (amended): on a tree whose only named nodes are a single FunctionDef,
the checker emits the violation message, produces a compiled-artifact handle
and lowercases the name exactly when the name fails the Python islower test —
that is, when it contains an uppercase character OR contains no cased
character at all (for example a name consisting only of underscores or
digits); the original claim holds whenever the name has at least one cased
character, and in particular the concrete "Foo" instance behaves as stated. -/
theorem naming_checker_function_def :
    (∀ (ln : Nat) (n : List Char),
      check_naming_conventions
          (PyAst.module [PyAst.functionDef ln n [PyAst.other (ln + 1) []]])
        = ((if n.any charIsUpper || !n.any charIsCased
              then [functionLowercaseMsg n] else [],
            if n.any charIsUpper || !n.any charIsCased
              then some () else (none : Option Unit)),
           PyAst.module [PyAst.functionDef ln
              (if n.any charIsUpper || !n.any charIsCased then pyLower n else n)
              [PyAst.other (ln + 1) []]])) ∧
    check_naming_conventions
        (PyAst.module [PyAst.functionDef 1 ("Foo".data) [PyAst.other 2 []]])
      = ((["Function name 'Foo' should be in lowercase.".data], some ()),
         PyAst.module [PyAst.functionDef 1 ("foo".data) [PyAst.other 2 []]]) := by
  constructor
  · intro ln n
    have hcond := not_pyIsLower n
    unfold check_naming_conventions
    have hwalk : walk (PyAst.module [PyAst.functionDef ln n [PyAst.other (ln + 1) []]])
        = [PyAst.module [PyAst.functionDef ln n [PyAst.other (ln + 1) []]],
           PyAst.functionDef ln n [PyAst.other (ln + 1) []],
           PyAst.other (ln + 1) []] := by
      simp [walk, astSize, astSizeList, walkAux, childrenOf]
    rw [hwalk]
    simp only [List.foldl_cons, List.foldl_nil, nameStep, cnvRewrite, cnvRewriteList]
    rw [hcond]
    cases h : (n.any charIsUpper || !n.any charIsCased) <;> simp
  · rfl

/-- C2 counterexample: a function named with a single underscore contains no
uppercase character, yet the checker emits the lowercase violation for it,
since Python islower is false on names with no cased character. -/
theorem naming_checker_underscore_flagged :
    (check_naming_conventions
        (PyAst.module [PyAst.functionDef 1 ['_'] [PyAst.other 2 []]])).1.1
      = ["Function name '_' should be in lowercase.".data] ∧
    (['_'].any charIsUpper) = false := by
  constructor <;> rfl

/-- C5 counterexample: invoking the checker a second time on the same mutated
tree still yields a violation when a function name has no cased character —
lowercasing "_" does not change it, so the second run flags it again. -/
theorem naming_checker_second_run_nonempty :
    (check_naming_conventions
        ((check_naming_conventions
          (PyAst.module [PyAst.functionDef 1 ['_'] [PyAst.other 2 []]])).2)).1.1
      ≠ [] := by decide

theorem cnvRewriteList_eq_map :
    ∀ l : List PyAst, cnvRewriteList l = l.map cnvRewrite := by
  intro l
  induction l with
  | nil => rfl
  | cons t ts ih => simp [cnvRewriteList, ih]

theorem childrenOf_cnvRewrite (t : PyAst) :
    childrenOf (cnvRewrite t) = (childrenOf t).map cnvRewrite := by
  cases t <;> simp [cnvRewrite, childrenOf, cnvRewriteList_eq_map]

mutual
theorem astSize_cnvRewrite (t : PyAst) : astSize (cnvRewrite t) = astSize t := by
  cases t <;> simp [cnvRewrite, astSize, astSizeList_cnvRewrite]

theorem astSizeList_cnvRewrite (l : List PyAst) :
    astSizeList (cnvRewriteList l) = astSizeList l := by
  cases l with
  | nil => rfl
  | cons t ts =>
    simp [cnvRewriteList, astSizeList, astSize_cnvRewrite, astSizeList_cnvRewrite]
end

theorem walkAux_map_cnvRewrite :
    ∀ (fuel : Nat) (l : List PyAst),
      walkAux fuel (l.map cnvRewrite) = (walkAux fuel l).map cnvRewrite := by
  intro fuel
  induction fuel with
  | zero => intro l; cases l <;> rfl
  | succ f ih =>
    intro l
    cases l with
    | nil => rfl
    | cons t q =>
      simp only [List.map_cons, walkAux, childrenOf_cnvRewrite, ← List.map_append, ih]

theorem walk_cnvRewrite (t : PyAst) :
    walk (cnvRewrite t) = (walk t).map cnvRewrite := by
  unfold walk
  rw [astSize_cnvRewrite]
  rw [show [cnvRewrite t] = [t].map cnvRewrite from rfl, walkAux_map_cnvRewrite]

theorem foldl_eq_of_fix {α β : Type} (f : α → β → α) :
    ∀ (l : List β) (a : α), (∀ b ∈ l, ∀ x, f x b = x) → l.foldl f a = a := by
  intro l
  induction l with
  | nil => intro a _; rfl
  | cons b bs ih =>
    intro a h
    rw [List.foldl_cons, h b (by simp)]
    exact ih a fun b' hb x => h b' (by simp [hb]) x

theorem pyIsLower_pyLower (s : List Char) (h : s.any charIsCased = true) :
    pyIsLower (pyLower s) = true := by
  simp [pyIsLower, pyLower, Function.comp_def, charIsCased_charToLower,
    charIsUpper_charToLower, h]

theorem pyIsUpper_pyLower (s : List Char) : pyIsUpper (pyLower s) = false := by
  cases h : s.any charIsCased with
  | false =>
    simp [pyIsUpper, pyLower, Function.comp_def, charIsCased_charToLower, h]
  | true =>
    rcases List.any_eq_true.mp h with ⟨c, hc, hcased⟩
    have hl : (pyLower s).any charIsLower = true :=
      List.any_eq_true.mpr ⟨charToLower c, List.mem_map_of_mem charToLower hc,
        charIsLower_charToLower_of_cased c hcased⟩
    simp [pyIsUpper, hl]

theorem matchesIdent_pyLower (s : List Char) :
    matchesIdent (pyLower s) = matchesIdent s := by
  cases s with
  | nil => rfl
  | cons c cs =>
    simp [matchesIdent, pyLower, isIdentStart_charToLower, Function.comp_def,
      isIdentChar_charToLower]

theorem nameStep_cnvRewrite_silent (node : PyAst)
    (h : stableNameNode node = true) :
    ∀ st, nameStep st (cnvRewrite node) = st := by
  intro st
  cases node with
  | functionDef ln n b =>
    have hcased : n.any charIsCased = true := h
    have hlow : pyIsLower (if pyIsLower n = false then pyLower n else n) = true := by
      by_cases hl : pyIsLower n
      · simp [hl]
      · simp only [Bool.not_eq_true] at hl
        rw [if_pos hl]
        exact pyIsLower_pyLower n hcased
    simp [cnvRewrite, nameStep, hlow]
  | nameId ln i =>
    have hid : matchesIdent i = true := h
    by_cases hu : pyIsUpper i
    · simp [cnvRewrite, nameStep, hu, pyIsUpper_pyLower, matchesIdent_pyLower, hid]
    · simp [cnvRewrite, nameStep, hu, hid]
  | module b => rfl
  | classDef ln nm b => rfl
  | constStr ln s => rfl
  | other ln b => rfl

/-- C5 (amended): for every tree in which each FunctionDef name contains at
least one cased character and each identifier use matches the identifier
pattern — which holds for every parser-produced tree except those with
letterless function names such as "_" — the second invocation of the naming
checker on the tree mutated by the first invocation yields an empty violation
list, because the first invocation lowercased every offending identifier. -/
theorem naming_checker_second_run_empty (tree : PyAst)
    (h : (walk tree).all stableNameNode = true) :
    (check_naming_conventions ((check_naming_conventions tree).2)).1.1 = [] := by
  have h2 : (check_naming_conventions tree).2 = cnvRewrite tree := rfl
  rw [h2]
  unfold check_naming_conventions
  rw [walk_cnvRewrite]
  rw [foldl_eq_of_fix nameStep ((walk tree).map cnvRewrite) ([], none) ?silent]
  case silent =>
    intro b hb x
    rcases List.mem_map.mp hb with ⟨node, hnode, rfl⟩
    exact nameStep_cnvRewrite_silent node (List.all_eq_true.mp h _ hnode) x

/-- Witness for C5 on a concrete tree with one uppercase-named function. -/
theorem naming_checker_second_run_empty_witness :
    ((walk (PyAst.module [PyAst.functionDef 1 ("Foo".data)
        [PyAst.other 2 []]])).all stableNameNode = true) ∧
    (check_naming_conventions ((check_naming_conventions
        (PyAst.module [PyAst.functionDef 1 ("Foo".data)
          [PyAst.other 2 []]])).2)).1.1 = [] :=
  ⟨by decide, naming_checker_second_run_empty _ (by decide)⟩

/-- C3 counterexample: on a two-line function definition the recommender
splices at character offset `line_number - 1` of the running working copy,
not immediately before the source line: the first character of the working
copy is split off and no whole placeholder comment line ends up directly
before the first body line, so the modified text differs from the
line-positional splice described by the claim. -/
theorem recommender_char_splice_counterexample :
    (recommend_coding_style ("def f():\n    return 1".data)
        (PyAst.module [PyAst.functionDef 1 ("f".data) [PyAst.other 2 []]])).2
      = ("#\n# Add comments here\n Add comments here\ndef f():\n    return 1".data) ∧
    ("#\n# Add comments here\n Add comments here\ndef f():\n    return 1".data)
      ≠ ("# Add comments here\ndef f():\n# Add comments here\n    return 1".data) := by
  constructor
  · rfl
  · decide

theorem recStep_silent (code : List Char) (node : PyAst)
    (h : silentRec node = true) : ∀ st, recStep code st node = st := by
  intro st
  cases node with
  | module b => simp [silentRec] at h
  | functionDef ln n b => simp [silentRec] at h
  | classDef ln n b => simp [silentRec] at h
  | nameId ln i => rfl
  | constStr ln s => rfl
  | other ln b => rfl

theorem walk_module (body : List PyAst) :
    walk (PyAst.module body) = PyAst.module body :: walkForest body := by
  unfold walk walkForest astSize
  rw [Nat.add_comm]
  simp [walkAux, childrenOf]

theorem splitLines_of_no_newline (code : List Char)
    (h : ∀ c ∈ code, c ≠ '\n') : splitLines code = [code] := by
  induction code with
  | nil => rfl
  | cons c cs ih =>
    have hc : ¬(c = '\n') := h c (by simp)
    simp only [splitLines, if_neg hc, ih fun x hx => h x (by simp [hx])]

/-- C3 (amended): the Module branch prepends the placeholder comment line to
the working copy, while the FunctionDef and ClassDef branches splice the
placeholder at character offset `line_number - 1` of the running working copy
— a string index, not a line position.  The concrete consequence claimed
still holds: for a one-line module (no newline, at most 79 characters) whose
stripped text is not a comment, with no docstring and no FunctionDef or
ClassDef node, the recommendations are exactly the module message and the
modified text is the placeholder comment line followed by the original
text. -/
theorem recommender_one_line_module (code : List Char) (body : List PyAst)
    (h1 : ∀ c ∈ code, c ≠ '\n')
    (h2 : startsWithHash code = false)
    (h3 : code.length ≤ 79)
    (h4 : hasTruthyDocstring body = false)
    (h5 : (walkForest body).all silentRec = true) :
    recommend_coding_style code (PyAst.module body)
      = ([addCommentsHereMsg], placeholderModule ++ code) := by
  have hsplit := splitLines_of_no_newline code h1
  have hline0 : lineAt code 0 = code := by simp [lineAt, hsplit]
  unfold recommend_coding_style
  rw [walk_module, List.foldl_cons]
  rw [show recStep code ([], code) (PyAst.module body)
      = ([addCommentsHereMsg], placeholderModule ++ code) by
    simp [recStep, h4, hline0, h2]]
  rw [foldl_eq_of_fix (recStep code) (walkForest body) _
    (fun b hb => recStep_silent code b (List.all_eq_true.mp h5 b hb))]
  rw [hsplit]
  have hno : ¬(code.length > 79) := by omega
  simp only [lineLengthAux, if_neg hno]
  simp [addCommentsHereMsg]

/-- Witness for C3 on the one-line module "x = 1". -/
theorem recommender_one_line_module_witness :
    (∀ c ∈ ("x = 1".data), c ≠ '\n') ∧
    recommend_coding_style ("x = 1".data) (PyAst.module [PyAst.other 1 []])
      = ([addCommentsHereMsg], placeholderModule ++ "x = 1".data) :=
  ⟨by decide,
   recommender_one_line_module _ _ (by decide) (by decide) (by decide)
     (by decide) (by decide)⟩

theorem inner_foldl (line1 : List Char) (i : Nat) :
    ∀ (l2 : List (List Char)) (d : Nat) (acc : List (Nat × Nat)),
      (List.enumFrom d l2).foldl
        (fun acc q =>
          if similarityAbove line1 q.2 then acc ++ [(i, q.1 + i + 1)] else acc) acc
      = acc ++ innerPairs line1 i (d + i + 1) l2 := by
  intro l2
  induction l2 with
  | nil => intro d acc; simp [innerPairs]
  | cons line2 rest ih =>
    intro d acc
    rw [List.enumFrom_cons, List.foldl_cons]
    have harith : d + 1 + i + 1 = d + i + 1 + 1 := by omega
    by_cases h : similarityAbove line1 line2
    · rw [if_pos h, ih (d + 1), harith]
      simp [innerPairs, h]
    · rw [if_neg h, ih (d + 1), harith]
      simp [innerPairs, h]

theorem outer_foldl (L : List (List Char)) :
    ∀ (s : List (List Char)) (k : Nat) (acc : List (Nat × Nat)), L.drop k = s →
      (List.enumFrom k s).foldl
        (fun repeated p =>
          (L.drop (p.1 + 1)).enum.foldl
            (fun acc2 q =>
              if similarityAbove p.2 q.2 then acc2 ++ [(p.1, q.1 + p.1 + 1)]
              else acc2) repeated) acc
      = acc ++ pairsFrom k s := by
  intro s
  induction s with
  | nil => intro k acc _; simp [pairsFrom]
  | cons line1 rest ih =>
    intro k acc hdrop
    have hrest : L.drop (k + 1) = rest := by
      rw [← List.tail_drop, hdrop]
      rfl
    rw [List.enumFrom_cons, List.foldl_cons, hrest]
    rw [show (rest.enum = List.enumFrom 0 rest) from List.enum_eq_enumFrom]
    rw [inner_foldl line1 k rest 0 acc]
    rw [ih (k + 1) _ hrest]
    simp [pairsFrom, Nat.zero_add]

theorem detect_eq_pairsFrom (code : List Char) :
    detect_repeated_code code = pairsFrom 0 (splitLines code) := by
  have h := outer_foldl (splitLines code) (splitLines code) 0 [] (by simp)
  unfold detect_repeated_code
  simp only [List.enum_eq_enumFrom]
  simpa using h

theorem getD_drop_nat {α : Type} :
    ∀ (L : List α) (k m : Nat) (d : α), (L.drop k).getD m d = L.getD (k + m) d := by
  intro L
  induction L with
  | nil => intro k m d; simp
  | cons a t ih =>
    intro k m d
    cases k with
    | zero => simp
    | succ k => simp [Nat.succ_add, ih k m d]

theorem mem_innerPairs (line1 : List Char) (i : Nat) :
    ∀ (l2 : List (List Char)) (j : Nat) (x : Nat × Nat),
      x ∈ innerPairs line1 i j l2
        ↔ ∃ d, d < l2.length ∧ x = (i, j + d)
            ∧ similarityAbove line1 (l2.getD d []) = true := by
  intro l2
  induction l2 with
  | nil => intro j x; simp [innerPairs]
  | cons line2 rest ih =>
    intro j x
    simp only [innerPairs, List.mem_append, ih (j + 1)]
    constructor
    · rintro (hx | ⟨d, hd, hx, hsim⟩)
      · by_cases h : similarityAbove line1 line2
        · rw [if_pos h] at hx
          simp only [List.mem_singleton] at hx
          exact ⟨0, by simp, by simpa using hx, by simpa using h⟩
        · rw [if_neg h] at hx
          simp at hx
      · subst hx
        refine ⟨d + 1, by simpa using hd, ?_, by simpa using hsim⟩
        have he : j + 1 + d = j + (d + 1) := by omega
        rw [he]
    · rintro ⟨d, hd, hx, hsim⟩
      cases d with
      | zero =>
        left
        have h : similarityAbove line1 line2 = true := by simpa using hsim
        rw [if_pos h]
        simpa using hx
      | succ d =>
        right
        subst hx
        refine ⟨d, by simpa using hd, ?_, by simpa using hsim⟩
        have he : j + (d + 1) = j + 1 + d := by omega
        rw [he]

theorem mem_pairsFrom (L : List (List Char)) :
    ∀ (s : List (List Char)) (k : Nat), L.drop k = s →
      ∀ i j, ((i, j) ∈ pairsFrom k s
        ↔ (k ≤ i ∧ i < j ∧ j < L.length
            ∧ similarityAbove (L.getD i []) (L.getD j []) = true)) := by
  intro s
  induction s with
  | nil =>
    intro k hdrop i j
    have hk : L.length ≤ k := List.drop_eq_nil_iff.mp hdrop
    simp only [pairsFrom, List.not_mem_nil, false_iff]
    rintro ⟨h1, h2, h3, _⟩
    omega
  | cons line1 rest ih =>
    intro k hdrop i j
    have hrest : L.drop (k + 1) = rest := by
      rw [← List.tail_drop, hdrop]
      rfl
    have hlen : L.length = k + rest.length + 1 := by
      have := congrArg List.length hdrop
      simp only [List.length_drop, List.length_cons] at this
      have hk : k < L.length := by
        by_contra hk
        push_neg at hk
        rw [List.drop_eq_nil_iff.mpr hk] at hdrop
        exact List.noConfusion hdrop
      omega
    have hgetk : L.getD k [] = line1 := by
      have := getD_drop_nat L k 0 ([] : List Char)
      rw [hdrop] at this
      simpa using this.symm
    have hgetrest : ∀ d, rest.getD d ([] : List Char) = L.getD (k + 1 + d) [] := by
      intro d
      rw [← hrest, getD_drop_nat]
    simp only [pairsFrom, List.mem_append, mem_innerPairs line1 k rest (k + 1),
      ih (k + 1) hrest i j]
    constructor
    · rintro (⟨d, hd, hx, hsim⟩ | ⟨h1, h2, h3, h4⟩)
      · simp only [Prod.mk.injEq] at hx
        obtain ⟨hi, hij⟩ := hx
        subst hi
        refine ⟨Nat.le_refl i, by omega, by omega, ?_⟩
        rw [hgetk, hij, ← hgetrest d]
        exact hsim
      · exact ⟨by omega, h2, h3, h4⟩
    · rintro ⟨h1, h2, h3, h4⟩
      rcases Nat.eq_or_lt_of_le h1 with hik | hik
      · left
        refine ⟨j - (k + 1), by omega, ?_, ?_⟩
        · simp only [Prod.mk.injEq]
          omega
        · rw [hgetrest (j - (k + 1))]
          have he : k + 1 + (j - (k + 1)) = j := by omega
          rw [he, ← hgetk, hik]
          exact h4
      · right
        exact ⟨by omega, h2, h3, h4⟩

theorem innerPairs_bounds (line1 : List Char) (i : Nat) :
    ∀ (l2 : List (List Char)) (j : Nat) (x : Nat × Nat),
      x ∈ innerPairs line1 i j l2 → x.1 = i ∧ j ≤ x.2 := by
  intro l2
  induction l2 with
  | nil => intro j x hx; simp [innerPairs] at hx
  | cons line2 rest ih =>
    intro j x hx
    simp only [innerPairs, List.mem_append] at hx
    rcases hx with hx | hx
    · by_cases h : similarityAbove line1 line2
      · rw [if_pos h] at hx
        simp only [List.mem_singleton] at hx
        subst hx
        exact ⟨rfl, Nat.le_refl j⟩
      · rw [if_neg h] at hx
        simp at hx
    · rcases ih (j + 1) x hx with ⟨h1, h2⟩
      exact ⟨h1, by omega⟩

theorem pairsFrom_bounds :
    ∀ (s : List (List Char)) (k : Nat) (x : Nat × Nat),
      x ∈ pairsFrom k s → k ≤ x.1 := by
  intro s
  induction s with
  | nil => intro k x hx; simp [pairsFrom] at hx
  | cons line1 rest ih =>
    intro k x hx
    simp only [pairsFrom, List.mem_append] at hx
    rcases hx with hx | hx
    · rcases innerPairs_bounds line1 k rest (k + 1) x hx with ⟨h1, _⟩
      omega
    · have := ih (k + 1) x hx
      omega

theorem innerPairs_pairwise (line1 : List Char) (i : Nat) :
    ∀ (l2 : List (List Char)) (j : Nat),
      List.Pairwise pairLex (innerPairs line1 i j l2) := by
  intro l2
  induction l2 with
  | nil => intro j; simp [innerPairs]
  | cons line2 rest ih =>
    intro j
    simp only [innerPairs]
    rw [List.pairwise_append]
    refine ⟨?_, ih (j + 1), ?_⟩
    · by_cases h : similarityAbove line1 line2 <;> simp [h]
    · intro a ha b hb
      by_cases h : similarityAbove line1 line2
      · rw [if_pos h] at ha
        simp only [List.mem_singleton] at ha
        subst ha
        rcases innerPairs_bounds line1 i rest (j + 1) b hb with ⟨h1, h2⟩
        right
        exact ⟨h1.symm, by omega⟩
      · rw [if_neg h] at ha
        simp at ha

theorem pairsFrom_pairwise :
    ∀ (s : List (List Char)) (k : Nat), List.Pairwise pairLex (pairsFrom k s) := by
  intro s
  induction s with
  | nil => intro k; simp [pairsFrom]
  | cons line1 rest ih =>
    intro k
    simp only [pairsFrom]
    rw [List.pairwise_append]
    refine ⟨innerPairs_pairwise line1 k rest (k + 1), ih (k + 1), ?_⟩
    intro a ha b hb
    rcases innerPairs_bounds line1 k rest (k + 1) a ha with ⟨h1, _⟩
    have h2 := pairsFrom_bounds rest (k + 1) b hb
    left
    omega

/-- C4: the duplicate line detector splits the text into its ordered line
sequence and returns exactly the pairs (i, j) with i < j whose similarity
ratio exceeds 0.8, listed with outer index ascending then inner index
ascending; on "abc\nabc" it returns [(0, 1)] and on "abc\nxyz" it returns
[]. -/
theorem detect_repeated_code_pairs (code : List Char) :
    (∀ i j, ((i, j) ∈ detect_repeated_code code
      ↔ (i < j ∧ j < (splitLines code).length
          ∧ similarityAbove ((splitLines code).getD i [])
              ((splitLines code).getD j []) = true))) ∧
    List.Pairwise pairLex (detect_repeated_code code) ∧
    detect_repeated_code ("abc\nabc".data) = [(0, 1)] ∧
    detect_repeated_code ("abc\nxyz".data) = [] := by
  refine ⟨?_, ?_, by decide, by decide⟩
  · intro i j
    rw [detect_eq_pairsFrom]
    have h := mem_pairsFrom (splitLines code) (splitLines code) 0 (by simp) i j
    simpa using h
  · rw [detect_eq_pairsFrom]
    exact pairsFrom_pairwise (splitLines code) 0

/-- Witness for C4 at the pair (0, 1) of the text "abc\nabc". -/
theorem detect_repeated_code_pairs_witness :
    (0, 1) ∈ detect_repeated_code ("abc\nabc".data)
      ↔ (0 < 1 ∧ 1 < (splitLines ("abc\nabc".data)).length
          ∧ similarityAbove ((splitLines ("abc\nabc".data)).getD 0 [])
              ((splitLines ("abc\nabc".data)).getD 1 []) = true) :=
  (detect_repeated_code_pairs ("abc\nabc".data)).1 0 1

/-- C10: two distinct empty lines are always reported as a duplicate pair:
difflib assigns ratio 1.0 to two empty strings, which exceeds 0.8. -/
theorem empty_lines_duplicate (code : List Char) (i j : Nat)
    (hij : i < j) (hj : j < (splitLines code).length)
    (hi0 : (splitLines code).getD i [] = [])
    (hj0 : (splitLines code).getD j [] = []) :
    (i, j) ∈ detect_repeated_code code := by
  rw [detect_eq_pairsFrom]
  apply (mem_pairsFrom (splitLines code) (splitLines code) 0 (by simp) i j).mpr
  refine ⟨Nat.zero_le i, hij, hj, ?_⟩
  rw [hi0, hj0]
  rfl

/-- Witness for C10 on the text "a\n\n", whose lines 1 and 2 are empty. -/
theorem empty_lines_duplicate_witness :
    (1 < 2 ∧ 2 < (splitLines ("a\n\n".data)).length
      ∧ (splitLines ("a\n\n".data)).getD 1 [] = []
      ∧ (splitLines ("a\n\n".data)).getD 2 [] = []) ∧
    (1, 2) ∈ detect_repeated_code ("a\n\n".data) :=
  ⟨by decide,
   empty_lines_duplicate ("a\n\n".data) 1 2 (by decide) (by decide)
     (by decide) (by decide)⟩

/-- C6: the analysis fails exactly when the input cannot be parsed — a parse
failure propagates unmodified, with message and position intact, while a
successful parse always yields a result — and the component operations are
total, giving zero-valued or empty results on degenerate inputs (empty text,
zero functions, zero lines) rather than errors. -/
theorem analyze_code_error_propagation :
    (∀ code e, analyze_code code (Except.error e) = Except.error e) ∧
    (∀ code tree, ∃ r, analyze_code code (Except.ok tree) = Except.ok r) ∧
    analyze_code_complexity [] = 0 ∧
    analyze_code_quality [] = 0 ∧
    calculate_average_function_length (PyAst.module []) = 0 ∧
    (check_naming_conventions (PyAst.module [])).1.1 = [] ∧
    detect_repeated_code [] = [] :=
  ⟨fun _ _ => rfl, fun _ _ => ⟨_, rfl⟩, rfl, rfl, rfl, rfl, rfl⟩
